import Mathlib

/-!
Shallow embedding of the analytics core of the stock-market MCP server
(`src/services/marketData.ts`, `src/services/technicalAnalysis.ts`,
`src/services/options.ts`), together with theorems settling the frozen
claims about it.  Machine floating-point arithmetic is modelled by exact
rationals (for the discrete/aggregate code) and by real numbers (for the
Black-Scholes pricing code); JavaScript `Math.round` (half towards +inf)
is Mathlib's `round`.
-/

namespace StockMCP

/-! ## Market data service (`src/services/marketData.ts`) -/

/-- Static configuration read by the `MarketDataService` constructor:
`DATA_PROVIDER`, `ALPHA_VANTAGE_API_KEY`, and the Alpaca credentials. -/
structure MarketConfig where
  provider : String
  apiKey : String
  alpacaKeyId : String
  alpacaSecretKey : String
deriving DecidableEq, Repr

/-- Which code path a fetch is routed to. -/
inductive DataSource
  | alphaVantage
  | alpaca
  | mock
deriving DecidableEq, Repr

/-- Provider dispatch of `MarketDataService.getQuote` (marketData.ts:49-56):
`alpha_vantage` and `alpaca` go to the real provider, anything else falls
back to `getMockQuote`. -/
def quoteSource (cfg : MarketConfig) : DataSource :=
  if cfg.provider = "alpha_vantage" then .alphaVantage
  else if cfg.provider = "alpaca" then .alpaca
  else .mock

/-- Provider dispatch of `MarketDataService.getHistoricalData`
(marketData.ts:92-99): the Alpha Vantage branch additionally requires a
non-empty API key; anything else falls back to
`generateMockHistoricalData`. -/
def historicalSource (cfg : MarketConfig) : DataSource :=
  if cfg.provider = "alpha_vantage" ∧ cfg.apiKey ≠ "" then .alphaVantage
  else if cfg.provider = "alpaca" then .alpaca
  else .mock

/-- What the caller of a fetch operation receives. -/
inductive FetchResult
  | realData
  | mockData
  | thrownError
deriving DecidableEq, Repr

/-- Outcome of `getQuote` as a function of the configuration and of whether
the upstream provider call succeeds: the mock branch never contacts a
provider and always "succeeds" with fabricated data; the real branches
re-throw provider failures (marketData.ts:46-68). -/
def getQuoteOutcome (cfg : MarketConfig) (upstreamOk : Bool) : FetchResult :=
  match quoteSource cfg with
  | .mock => .mockData
  | _ => if upstreamOk then .realData else .thrownError

/-- Outcome of `getHistoricalData` as a function of the configuration and
of whether the upstream provider call succeeds (marketData.ts:89-124). -/
def getHistoricalOutcome (cfg : MarketConfig) (upstreamOk : Bool) : FetchResult :=
  match historicalSource cfg with
  | .mock => .mockData
  | _ => if upstreamOk then .realData else .thrownError

/-- Cache key built by `getQuote` (marketData.ts:34). -/
def quoteCacheKey (symbol : String) : String :=
  "quote_" ++ symbol

/-- Cache key built by `getHistoricalData` (marketData.ts:72). -/
def historicalCacheKey (symbol period interval : String) : String :=
  "historical_" ++ symbol ++ "_" ++ period ++ "_" ++ interval

/-- A cacheable request, identified by the parameters that determine its
result. -/
inductive CacheRequest
  | quote (symbol : String)
  | historical (symbol period interval : String)
deriving DecidableEq, Repr

/-- The cache key of a request. -/
def cacheKey : CacheRequest → String
  | .quote s => quoteCacheKey s
  | .historical s p i => historicalCacheKey s p i

/-- A string that contains no underscore, the separator character of the
cache keys. -/
def noUnderscore (s : String) : Prop :=
  '_' ∉ s.data

/-- The key parameters that must avoid the separator for a request's key
to be unambiguous: the symbol and period of a historical request (the
interval, being the last component, may contain anything). -/
def keyParamsSafe : CacheRequest → Prop
  | .quote _ => True
  | .historical s p _ => noUnderscore s ∧ noUnderscore p

/-- The fields of a `Quote` involved in the change invariants
(types/index.ts shape, as constructed in marketData.ts). -/
structure QuoteRecord where
  price : ℚ
  change : ℚ
  changePercent : ℚ
  previousClose : ℚ
deriving DecidableEq, Repr

/-- Change-related fields of the quote built by
`MarketDataService.getMockQuote` (marketData.ts:387-410), as a function of
the two random draws `basePrice` and `change`. -/
def getMockQuote (basePrice change : ℚ) : QuoteRecord :=
  { price := basePrice
    change := change
    changePercent := change / basePrice * 100
    previousClose := basePrice - change }

/-- Change-related fields of the quote built by
`MarketDataService.getAlpacaQuote` when a daily bar is present
(marketData.ts:205-220), as a function of the computed `price` and the
bar's close `barClose`. -/
def getAlpacaQuote (price barClose : ℚ) : QuoteRecord :=
  { price := price
    change := price - barClose
    changePercent := (price - barClose) / barClose * 100
    previousClose := barClose }

/-! ## Technical analysis service (`src/services/technicalAnalysis.ts`) -/

/-- One OHLCV bar (types/index.ts). -/
structure OHLCV where
  date : ℤ
  «open» : ℚ
  high : ℚ
  low : ℚ
  close : ℚ
  volume : ℚ
deriving DecidableEq, Repr

/-- Error taxonomy of the specification relevant to indicator requests. -/
inductive IndicatorError
  | invalidParameter
  | insufficientData
deriving DecidableEq, Repr

/-- The indicator names handled by the `switch` in
`calculateIndicators` (technicalAnalysis.ts:22-55). -/
def supportedIndicators : List String :=
  ["RSI", "MACD", "BB", "SMA", "EMA", "STOCH", "ADX", "ATR", "OBV", "VWAP"]

/-- One iteration of the dispatch loop of `calculateIndicators`: a
supported name sets its key in the results record (setting an existing key
leaves the key set unchanged); an unsupported name matches no `case` and
is skipped; no branch throws. -/
def dispatchIndicator (results : List String) (name : String) : List String :=
  if name ∈ supportedIndicators then
    if name ∈ results then results else results ++ [name]
  else results

/-- The set of result keys produced by the dispatch loop of
`calculateIndicators` for a requested list of indicator names. -/
def indicatorResultKeys (names : List String) : List String :=
  names.foldl dispatchIndicator []

/-- The full dispatch of `calculateIndicators` over the requested names:
the loop is total and throws no indicator-related error, so the model
always returns `.ok` with the produced result keys
(technicalAnalysis.ts:12-72). -/
def calculateIndicatorsModel (names : List String) :
    Except IndicatorError (List String) :=
  .ok (indicatorResultKeys names)

/-- Trading signals attached to indicator results. -/
inductive Signal
  | BUY
  | SELL
  | NEUTRAL
deriving DecidableEq, Repr

/-- Aggregate recommendation labels returned by
`getOverallRecommendation`. -/
inductive Recommendation
  | strongBuy
  | buy
  | strongSell
  | sell
  | neutral
deriving DecidableEq, Repr

/-- Number of occurrences of a signal in a list of signals
(the `signalCounts` tally of technicalAnalysis.ts:420-424). -/
def countSig (target : Signal) : List Signal → ℕ
  | [] => 0
  | s :: rest => (if s = target then 1 else 0) + countSig target rest

/-- The `getOverallRecommendation` classification
(technicalAnalysis.ts:419-436): buy percentage and sell percentage of the
total signal count, compared with strict `>` against 60 and 40, buy
thresholds first. -/
def getOverallRecommendation (signals : List Signal) : Recommendation :=
  let total : ℚ := countSig .BUY signals + countSig .SELL signals +
    countSig .NEUTRAL signals
  let buyPercentage : ℚ := countSig .BUY signals / total * 100
  let sellPercentage : ℚ := countSig .SELL signals / total * 100
  if buyPercentage > 60 then .strongBuy
  else if buyPercentage > 40 then .buy
  else if sellPercentage > 60 then .strongSell
  else if sellPercentage > 40 then .sell
  else .neutral

/-- Price discretization of `calculateSupportResistance`
(technicalAnalysis.ts:385): `Math.round(price / tolerance) * tolerance`
with the constant `tolerance = 0.02`.  JavaScript `Math.round` rounds
half towards positive infinity, which is Mathlib's `round`. -/
def roundedPrice (price : ℚ) : ℚ :=
  round (price / (2 / 100)) * (2 / 100)

/-- Modelled from the spec: the discretization the claim describes, in
which the tolerance is instead 2% of the price being bucketed (nothing in
src implements this; it exists only to be compared with `roundedPrice`). -/
def specRelativeBucket (price : ℚ) : ℚ :=
  round (price / (2 / 100 * price)) * (2 / 100 * price)

/-- The flattened list of every bar's high and low
(technicalAnalysis.ts:378). -/
def pricePoints (data : List OHLCV) : List ℚ :=
  (data.map (fun d => [d.high, d.low])).flatten

/-- One `priceCounts.set(roundedPrice, get(roundedPrice)+1)` step on the
association-list model of the JavaScript `Map` (insertion order
preserved, existing keys updated in place). -/
def bumpCount : List (ℚ × ℕ) → ℚ → List (ℚ × ℕ)
  | [], k => [(k, 1)]
  | (k', n) :: rest, k =>
    if k = k' then (k', n + 1) :: rest else (k', n) :: bumpCount rest k

/-- The `priceCounts` map built by `calculateSupportResistance`
(technicalAnalysis.ts:381-387): every price point is discretized with
`roundedPrice` and tallied. -/
def buildPriceCounts (points : List ℚ) : List (ℚ × ℕ) :=
  points.foldl (fun acc p => bumpCount acc (roundedPrice p)) []

/-- Lookup in the association-list model of the `Map` (0 when absent,
matching `priceCounts.get(k) || 0`). -/
def getCount : List (ℚ × ℕ) → ℚ → ℕ
  | [], _ => 0
  | (k', n) :: rest, k => if k = k' then n else getCount rest k

/-- Number of occurrences of a rational in a list. -/
def countOcc (k : ℚ) : List ℚ → ℕ
  | [] => 0
  | p :: ps => (if p = k then 1 else 0) + countOcc k ps

/-! ## Options service (`src/services/options.ts`) -/

/-- Option contract kind. -/
inductive OptionType
  | CALL
  | PUT
deriving DecidableEq, Repr

/-- The fields of an option contract used by the chain aggregates
(types/index.ts shape). -/
structure Contract where
  strike : ℚ
  type : OptionType
  volume : ℚ
  openInterest : ℚ
deriving DecidableEq, Repr

/-- Total volume of the put contracts in a list
(options.ts:283,286, `filter` then `reduce`). -/
def putVolume (contracts : List Contract) : ℚ :=
  ((contracts.filter (fun c => c.type = .PUT)).map (fun c => c.volume)).foldl
    (fun sum v => sum + v) 0

/-- Total volume of the call contracts in a list (options.ts:284,287). -/
def callVolume (contracts : List Contract) : ℚ :=
  ((contracts.filter (fun c => c.type = .CALL)).map (fun c => c.volume)).foldl
    (fun sum v => sum + v) 0

/-- The `calculatePutCallRatio` computation (options.ts:282-290): put
volume over call volume when the call volume is positive, otherwise 0. -/
def calculatePutCallRatio (contracts : List Contract) : ℚ :=
  if callVolume contracts > 0 then putVolume contracts / callVolume contracts
  else 0

/-- First-occurrence deduplication, the order produced by
`[...new Set(contracts.map(c => c.strike))]` (options.ts:294). -/
def jsDedup (seen : List ℚ) : List ℚ → List ℚ
  | [] => []
  | x :: xs => if x ∈ seen then jsDedup seen xs else x :: jsDedup (x :: seen) xs

/-- The candidate strikes scanned by `calculateMaxPain`. -/
def strikesOf (contracts : List Contract) : List ℚ :=
  jsDedup [] (contracts.map (fun c => c.strike))

/-- Aggregate in-the-money intrinsic loss at expiration price `s`
(options.ts:299-304): calls with strike below `s` and puts with strike
above `s`, weighted by open interest. -/
def totalValue (contracts : List Contract) (s : ℚ) : ℚ :=
  ((contracts.filter (fun c => c.type = .CALL ∧ s > c.strike)).foldl
    (fun sum c => sum + (s - c.strike) * c.openInterest) 0) +
  ((contracts.filter (fun c => c.type = .PUT ∧ s < c.strike)).foldl
    (fun sum c => sum + (c.strike - s) * c.openInterest) 0)

/-- One iteration of the `calculateMaxPain` scan (options.ts:298-310).
The state is the running `(maxPain, minTotalValue)` pair; `none` models
the initial `Infinity`, which every finite total beats. -/
def maxPainStep (contracts : List Contract) (st : ℚ × Option ℚ) (s : ℚ) :
    ℚ × Option ℚ :=
  match st.2 with
  | none => (s, some (totalValue contracts s))
  | some m =>
    if totalValue contracts s < m then (s, some (totalValue contracts s)) else st

/-- The `calculateMaxPain` computation (options.ts:292-313): scan the
deduplicated strikes, keeping the strike of strictly smallest total value;
`maxPain` starts at `currentPrice`. -/
def calculateMaxPain (contracts : List Contract) (currentPrice : ℚ) : ℚ :=
  ((strikesOf contracts).foldl (maxPainStep contracts) (currentPrice, none)).1

/-! ## Black-Scholes pricing (`src/services/options.ts:53-106,335-354`)

The pricing code works in floating point; it is embedded over the real
numbers.  The underlying price 150, rate 0.05 and volatility 0.25 are the
constants hard-coded in `calculateGreeks`. -/

/-- The Abramowitz-Stegun normal CDF approximation `normalCDF`
(options.ts:335-350), translated literally: the sign trick, the
substitution `x := |x| / sqrt 2`, the degree-4 Horner polynomial in
`t = 1 / (1 + p x)`, and `y = 1 - poly(t) * t * exp(-x*x)`. -/
noncomputable def normalCDF (x : ℝ) : ℝ :=
  let sign : ℝ := if x < 0 then -1 else 1
  let x' : ℝ := |x| / Real.sqrt 2
  let t : ℝ := 1 / (1 + 0.3275911 * x')
  let y : ℝ := 1 -
    ((((1.061405429 * t + -1.453152027) * t + 1.421413741) * t + -0.284496736) *
      t + 0.254829592) * t * Real.exp (-(x' * x'))
  0.5 * (1 + sign * y)

/-- The Horner polynomial factor of `normalCDF` in isolation. -/
def asPoly (t : ℝ) : ℝ :=
  (((1.061405429 * t + -1.453152027) * t + 1.421413741) * t + -0.284496736) *
    t + 0.254829592

/-- The `y` of `normalCDF` as a function of the substituted argument
`x = |input| / sqrt 2`, used to analyse the approximation. -/
noncomputable def yFun (u : ℝ) : ℝ :=
  1 - asPoly (1 / (1 + 0.3275911 * u)) * (1 / (1 + 0.3275911 * u)) *
    Real.exp (-(u * u))

/-- The `d1` of `calculateGreeks` (options.ts:61-62), with the hard-coded
`currentPrice = 150`, `riskFreeRate = 0.05`, `volatility = 0.25`. -/
noncomputable def bsD1 (strike timeToExp : ℝ) : ℝ :=
  (Real.log (150 / strike) + (0.05 + 0.25 ^ 2 / 2) * timeToExp) /
    (0.25 * Real.sqrt timeToExp)

/-- The `d2` of `calculateGreeks` (options.ts:63). -/
noncomputable def bsD2 (strike timeToExp : ℝ) : ℝ :=
  bsD1 strike timeToExp - 0.25 * Real.sqrt timeToExp

/-- The delta of `calculateGreeks` (options.ts:66): `Φ(d1)` for a call and
`Φ(d1) - 1` for a put. -/
noncomputable def bsDelta (strike timeToExp : ℝ) (type : String) : ℝ :=
  if type = "call" then normalCDF (bsD1 strike timeToExp)
  else normalCDF (bsD1 strike timeToExp) - 1

/-- The `theoreticalPrice` of `calculateGreeks` for a call
(options.ts:80-81). -/
noncomputable def bsCallPrice (strike timeToExp : ℝ) : ℝ :=
  150 * normalCDF (bsD1 strike timeToExp) -
    strike * Real.exp (-(0.05) * timeToExp) * normalCDF (bsD2 strike timeToExp)

/-- The `theoreticalPrice` of `calculateGreeks` for a put
(options.ts:80,82). -/
noncomputable def bsPutPrice (strike timeToExp : ℝ) : ℝ :=
  strike * Real.exp (-(0.05) * timeToExp) * normalCDF (-bsD2 strike timeToExp) -
    150 * normalCDF (-bsD1 strike timeToExp)

/-! ## Helper lemmas -/

/-- Results accumulated by the indicator dispatch loop are either already
in the accumulator or are supported names from the request list. -/
theorem mem_foldl_dispatchIndicator (names : List String) :
    ∀ (acc : List String) (k : String), k ∈ names.foldl dispatchIndicator acc →
      k ∈ acc ∨ (k ∈ supportedIndicators ∧ k ∈ names) := by
  induction names with
  | nil => intro acc k h; exact Or.inl h
  | cons n ns ih =>
    intro acc k h
    rw [List.foldl_cons] at h
    rcases ih (dispatchIndicator acc n) k h with h' | h'
    · unfold dispatchIndicator at h'
      split at h'
      · split at h'
        · exact Or.inl h'
        · rcases List.mem_append.1 h' with h'' | h''
          · exact Or.inl h''
          · rcases List.mem_singleton.1 h'' with rfl
            exact Or.inr ⟨by assumption, List.mem_cons_self _ _⟩
      · exact Or.inl h'
    · exact Or.inr ⟨h'.1, List.mem_cons_of_mem _ h'.2⟩

/-! ## Claim C1 -/

/-- Claim C1, counterexample: a fetch with an unconfigured provider does
not fail with a typed error; it silently returns fabricated mock data.
With `DATA_PROVIDER=demo`, `getQuote` takes the `getMockQuote` branch, and
with `DATA_PROVIDER=alpha_vantage` but no API key, `getHistoricalData`
takes the `generateMockHistoricalData` branch. -/
theorem getQuote_mock_fallback_counterexample :
    getQuoteOutcome ⟨"demo", "", "", ""⟩ true = .mockData ∧
    getHistoricalOutcome ⟨"alpha_vantage", "", "", ""⟩ true = .mockData := by
  constructor <;> rfl

/-- Claim C1, amended: a fetch substitutes fabricated mock data exactly
when the provider dispatch selects the mock branch — for quotes, whenever
the configured provider is neither `alpha_vantage` nor `alpaca`; for
historical data, additionally when the provider is `alpha_vantage` but no
API key is set.  On the real-provider branches, an upstream failure is
re-thrown as an error and never replaced by fabricated data. -/
theorem fetch_outcome_characterization (cfg : MarketConfig) (upstreamOk : Bool) :
    (getQuoteOutcome cfg upstreamOk = .mockData ↔
      cfg.provider ≠ "alpha_vantage" ∧ cfg.provider ≠ "alpaca") ∧
    (getHistoricalOutcome cfg upstreamOk = .mockData ↔
      ¬(cfg.provider = "alpha_vantage" ∧ cfg.apiKey ≠ "") ∧
        cfg.provider ≠ "alpaca") ∧
    (quoteSource cfg ≠ .mock →
      getQuoteOutcome cfg upstreamOk =
        if upstreamOk then .realData else .thrownError) ∧
    (historicalSource cfg ≠ .mock →
      getHistoricalOutcome cfg upstreamOk =
        if upstreamOk then .realData else .thrownError) := by
  unfold getQuoteOutcome getHistoricalOutcome quoteSource historicalSource
  by_cases hav : cfg.provider = "alpha_vantage" <;>
    by_cases hap : cfg.provider = "alpaca" <;>
    by_cases hk : cfg.apiKey = "" <;>
    simp [hav, hap, hk] <;> cases upstreamOk <;> simp

/-- Claim C1, witness for the amended theorem at a concrete
configuration. -/
theorem fetch_outcome_characterization_witness :
    getQuoteOutcome ⟨"alpaca", "", "k", "s"⟩ false = .thrownError :=
  (fetch_outcome_characterization ⟨"alpaca", "", "k", "s"⟩ false).2.2.1
    (by decide)

/-! ## Claim C2 -/

/-- Claim C2, counterexample: requesting the unknown indicator name
`XYZ` does not fail with `InvalidParameter` — the dispatch loop skips it
and succeeds with an empty result; and requesting `RSI` never fails with
`InsufficientData` — the function has no minimum-length check at all (it
does not even consult the fetched series, computing on an internally
generated 100-bar mock series instead). -/
theorem calculateIndicators_no_error_counterexample :
    calculateIndicatorsModel ["XYZ"] = .ok [] ∧
    "XYZ" ∉ supportedIndicators ∧
    calculateIndicatorsModel ["RSI"] = .ok ["RSI"] := by
  refine ⟨rfl, by decide, rfl⟩

/-- Claim C2, amended: `calculateIndicators` never raises
`InvalidParameter` or `InsufficientData`: unsupported indicator names are
silently skipped (every produced result key is a supported name that was
requested), and no series-length check exists on any path. -/
theorem calculateIndicators_total (names : List String) :
    (∀ e : IndicatorError, calculateIndicatorsModel names ≠ .error e) ∧
    (∀ k : String, k ∈ indicatorResultKeys names →
      k ∈ supportedIndicators ∧ k ∈ names) := by
  constructor
  · intro e h
    exact Except.noConfusion h
  · intro k hk
    rcases mem_foldl_dispatchIndicator names [] k hk with h | h
    · exact absurd h (List.not_mem_nil k)
    · exact h

/-- Claim C2, witness for the amended theorem on a concrete request
mixing a supported and an unsupported name. -/
theorem calculateIndicators_total_witness :
    "RSI" ∈ supportedIndicators ∧ "RSI" ∈ ["RSI", "XYZ"] :=
  (calculateIndicators_total ["RSI", "XYZ"]).2 "RSI" (by decide)

/-! ## Claim C9 -/

/-- Claim C9, counterexample: the mock-quote constructor violates the
percentage half of the invariant.  With draws `basePrice = 200` and
`change = 4`, the previous close is `196 ≠ 0`, but `changePercent` is
computed as `change / basePrice * 100 = 2`, not
`changeAbs / previousClose * 100 = 100/49`. -/
theorem getMockQuote_changePercent_counterexample :
    (getMockQuote 200 4).previousClose ≠ 0 ∧
    (getMockQuote 200 4).changePercent ≠
      (getMockQuote 200 4).change / (getMockQuote 200 4).previousClose * 100 := by
  constructor <;> · simp only [getMockQuote]; norm_num

/-- Claim C9, amended: every quote built by either constructor satisfies
`changeAbs = price − previousClose`; the Alpaca constructor (with a bar
present and a nonzero bar close) also satisfies
`changePct = changeAbs / previousClose × 100`, but the mock constructor
instead computes `changePct = changeAbs / price × 100`, dividing by the
current price rather than the previous close. -/
theorem quote_change_invariants (price barClose basePrice change : ℚ)
    (h : barClose ≠ 0) :
    ((getAlpacaQuote price barClose).change =
        (getAlpacaQuote price barClose).price -
          (getAlpacaQuote price barClose).previousClose ∧
      (getAlpacaQuote price barClose).changePercent =
        (getAlpacaQuote price barClose).change /
          (getAlpacaQuote price barClose).previousClose * 100) ∧
    ((getMockQuote basePrice change).change =
        (getMockQuote basePrice change).price -
          (getMockQuote basePrice change).previousClose ∧
      (getMockQuote basePrice change).changePercent =
        (getMockQuote basePrice change).change /
          (getMockQuote basePrice change).price * 100) := by
  refine ⟨⟨rfl, rfl⟩, ⟨by simp [getMockQuote], rfl⟩⟩

/-- Claim C9, witness for the amended theorem at concrete quote inputs. -/
theorem quote_change_invariants_witness :
    (getAlpacaQuote 101 100).changePercent =
      (getAlpacaQuote 101 100).change /
        (getAlpacaQuote 101 100).previousClose * 100 :=
  ((quote_change_invariants 101 100 200 4 (by norm_num)).1).2

/-! ## Claim C10 -/

/-- Claim C10: `calculatePutCallRatio` is total and never divides by
zero — it returns total put volume over total call volume when the call
volume is positive, and exactly 0 when the call volume is 0 (as it is on
the empty list). -/
theorem calculatePutCallRatio_total (contracts : List Contract) :
    (callVolume contracts = 0 → calculatePutCallRatio contracts = 0) ∧
    (0 < callVolume contracts →
      calculatePutCallRatio contracts =
        putVolume contracts / callVolume contracts) := by
  constructor
  · intro h
    simp [calculatePutCallRatio, h]
  · intro h
    simp [calculatePutCallRatio, h]

/-- Claim C10, witness: on the empty chain the call volume is 0 and the
ratio is exactly 0. -/
theorem calculatePutCallRatio_total_witness :
    calculatePutCallRatio [] = 0 :=
  (calculatePutCallRatio_total []).1 rfl

/-! ## Claim C6 -/

/-- Every signal is BUY, SELL or NEUTRAL, so the three tallies sum to the
number of signals. -/
theorem countSig_total (signals : List Signal) :
    countSig .BUY signals + countSig .SELL signals +
      countSig .NEUTRAL signals = signals.length := by
  induction signals with
  | nil => rfl
  | cons s rest ih =>
    cases s <;> simp [countSig] <;> omega

/-- Claim C6: on a non-empty signal list with `B` BUY and `S` SELL out of
`T` total, the aggregate recommendation is STRONG BUY iff `B/T > 0.6`,
BUY iff `0.4 < B/T ≤ 0.6`, STRONG SELL iff `S/T > 0.6`, SELL iff
`B/T ≤ 0.4` and `0.4 < S/T ≤ 0.6` (the buy thresholds are checked first),
and NEUTRAL iff both ratios are at most `0.4`; all comparisons are strict
`>`, so exact boundaries resolve to the weaker label. -/
theorem getOverallRecommendation_thresholds (signals : List Signal)
    (h : signals ≠ []) :
    (getOverallRecommendation signals = .strongBuy ↔
      (countSig .BUY signals : ℚ) / signals.length > 3/5) ∧
    (getOverallRecommendation signals = .buy ↔
      2/5 < (countSig .BUY signals : ℚ) / signals.length ∧
        (countSig .BUY signals : ℚ) / signals.length ≤ 3/5) ∧
    (getOverallRecommendation signals = .strongSell ↔
      (countSig .SELL signals : ℚ) / signals.length > 3/5) ∧
    (getOverallRecommendation signals = .sell ↔
      (countSig .BUY signals : ℚ) / signals.length ≤ 2/5 ∧
        2/5 < (countSig .SELL signals : ℚ) / signals.length ∧
        (countSig .SELL signals : ℚ) / signals.length ≤ 3/5) ∧
    (getOverallRecommendation signals = .neutral ↔
      (countSig .BUY signals : ℚ) / signals.length ≤ 2/5 ∧
        (countSig .SELL signals : ℚ) / signals.length ≤ 2/5) := by
  have hlen : 0 < signals.length := List.length_pos.2 h
  simp only [getOverallRecommendation]
  set B : ℚ := (countSig .BUY signals : ℚ) with hB
  set S : ℚ := (countSig .SELL signals : ℚ) with hS
  set N : ℚ := (countSig .NEUTRAL signals : ℚ) with hN
  set T : ℚ := (signals.length : ℚ) with hT
  have hT0 : 0 < T := by rw [hT]; exact_mod_cast hlen
  have htot : B + S + N = T := by
    rw [hB, hS, hN, hT]
    exact_mod_cast countSig_total signals
  have hN0 : 0 ≤ N := by rw [hN]; positivity
  have hBS : B + S ≤ T := by linarith
  have hB0 : 0 ≤ B := by rw [hB]; positivity
  have hS0 : 0 ≤ S := by rw [hS]; positivity
  rw [htot]
  simp only [gt_iff_lt, div_mul_eq_mul_div, lt_div_iff₀ hT0, div_le_iff₀ hT0]
  split_ifs with h1 h2 h3 h4 <;> refine ⟨?_, ?_, ?_, ?_, ?_⟩ <;> first
    | exact iff_of_true rfl (by linarith)
    | exact iff_of_true rfl ⟨by linarith, by linarith⟩
    | exact iff_of_true rfl ⟨by linarith, by linarith, by linarith⟩
    | exact iff_of_false (by intro hc; cases hc) (by intro hx; linarith)

/-- Claim C6, witness: with 3 BUY out of 5 signals the buy ratio is
exactly the 60% boundary, and the strict `>` resolves it to the weaker
label BUY. -/
theorem getOverallRecommendation_thresholds_witness :
    getOverallRecommendation [.BUY, .BUY, .BUY, .SELL, .NEUTRAL] = .buy :=
  ((getOverallRecommendation_thresholds [.BUY, .BUY, .BUY, .SELL, .NEUTRAL]
      (by decide)).2.1).mpr (by simp [countSig]; norm_num)

/-! ## Claim C8 -/

/-- Splitting a character list at a separator character is unambiguous
when the part before the separator cannot contain it. -/
theorem append_sep_inj (sep : Char) :
    ∀ (as cs bs ds : List Char), sep ∉ as → sep ∉ cs →
      as ++ sep :: bs = cs ++ sep :: ds → as = cs ∧ bs = ds := by
  intro as
  induction as with
  | nil =>
    intro cs bs ds _ hc heq
    cases cs with
    | nil => simpa using heq
    | cons c cs' =>
      simp only [List.nil_append, List.cons_append, List.cons.injEq] at heq
      exact absurd (heq.1 ▸ List.mem_cons_self c cs') (by simpa [heq.1] using hc)
  | cons a as' ih =>
    intro cs bs ds ha hc heq
    cases cs with
    | nil =>
      simp only [List.cons_append, List.nil_append, List.cons.injEq] at heq
      exact absurd (heq.1 ▸ List.mem_cons_self a as') (by simpa [heq.1] using ha)
    | cons c cs' =>
      simp only [List.cons_append, List.cons.injEq] at heq
      obtain ⟨rfl, heq'⟩ := heq
      have := ih cs' bs ds (fun hmem => ha (List.mem_cons_of_mem _ hmem))
        (fun hmem => hc (List.mem_cons_of_mem _ hmem)) heq'
      exact ⟨by rw [this.1], this.2⟩

/-- Claim C8, counterexample: the underscore-separated key encoding is
not injective over all strings — a symbol containing an underscore
collides with a different (symbol, period) split. -/
theorem cacheKey_collision_counterexample :
    cacheKey (.historical "A_B" "C" "D") = cacheKey (.historical "A" "B_C" "D") ∧
    CacheRequest.historical "A_B" "C" "D" ≠ .historical "A" "B_C" "D" := by
  constructor
  · rfl
  · decide

/-- Claim C8, amended: the key encoding deterministically encodes the
quote-vs-historical discriminator, symbol, period and interval, and is
injective provided the symbol and period contain no underscore (the
separator); with underscores allowed in those parameters, distinct
historical requests can collide. -/
theorem cacheKey_injective (r r' : CacheRequest)
    (hr : keyParamsSafe r) (hr' : keyParamsSafe r')
    (heq : cacheKey r = cacheKey r') : r = r' := by
  have hdata := congrArg String.data heq
  cases r with
  | quote s =>
    cases r' with
    | quote s' =>
      simp only [cacheKey, quoteCacheKey, String.data_append] at hdata
      rw [String.ext (List.append_cancel_left hdata)]
    | historical s' p' i' =>
      simp only [cacheKey, quoteCacheKey, historicalCacheKey,
        String.data_append] at hdata
      simp only [List.cons_append, List.cons.injEq, List.append_assoc] at hdata
      exact absurd hdata.1 (by decide)
  | historical s p i =>
    cases r' with
    | quote s' =>
      simp only [cacheKey, quoteCacheKey, historicalCacheKey,
        String.data_append] at hdata
      simp only [List.cons_append, List.cons.injEq, List.append_assoc] at hdata
      exact absurd hdata.1 (by decide)
    | historical s' p' i' =>
      obtain ⟨hs, hp⟩ := hr
      obtain ⟨hs', hp'⟩ := hr'
      simp only [cacheKey, historicalCacheKey, String.data_append,
        List.append_assoc] at hdata
      have hdata' := List.append_cancel_left hdata
      simp only [List.singleton_append] at hdata'
      obtain ⟨hseq, hrest⟩ := append_sep_inj '_' s.data s'.data _ _ hs hs'
        (by simpa using hdata')
      obtain ⟨hpeq, hieq⟩ := append_sep_inj '_' p.data p'.data _ _ hp hp'
        (by simpa using hrest)
      rw [String.ext hseq, String.ext hpeq, String.ext hieq]

/-- Claim C8, witness for the amended theorem at concrete underscore-free
parameters. -/
theorem cacheKey_injective_witness :
    CacheRequest.historical "AAPL" "1mo" "1d" = .historical "AAPL" "1mo" "1d" :=
  cacheKey_injective (.historical "AAPL" "1mo" "1d")
    (.historical "AAPL" "1mo" "1d")
    (by simp only [keyParamsSafe, noUnderscore]; decide)
    (by simp only [keyParamsSafe, noUnderscore]; decide) rfl

/-! ## Claim C7 -/

/-- Bumping a key in the association-list model of the `Map` increments
exactly that key's count. -/
theorem getCount_bumpCount (k0 k : ℚ) :
    ∀ acc : List (ℚ × ℕ), getCount (bumpCount acc k0) k =
      getCount acc k + (if k = k0 then 1 else 0) := by
  intro acc
  induction acc with
  | nil => simp [bumpCount, getCount, eq_comm]
  | cons e rest ih =>
    obtain ⟨k', n⟩ := e
    by_cases h0 : k0 = k'
    · subst h0
      by_cases hk : k = k0 <;> simp [bumpCount, getCount, hk]
    · by_cases hk : k = k'
      · subst hk
        simp [bumpCount, getCount, h0, Ne.symm h0]
      · simp [bumpCount, getCount, h0, hk, ih]

/-- The `priceCounts` map of `calculateSupportResistance` tallies, for
each bucket, the number of price points discretizing to it. -/
theorem buildPriceCounts_count (k : ℚ) :
    ∀ (ps : List ℚ) (acc : List (ℚ × ℕ)),
      getCount (ps.foldl (fun a p => bumpCount a (roundedPrice p)) acc) k =
        getCount acc k + countOcc k (ps.map roundedPrice) := by
  intro ps
  induction ps with
  | nil => intro acc; simp [countOcc]
  | cons p rest ih =>
    intro acc
    rw [List.foldl_cons, ih, getCount_bumpCount]
    simp only [List.map_cons, countOcc]
    by_cases h : k = roundedPrice p <;> simp [h, eq_comm] <;> omega

/-- Claim C7, counterexample: the code's bucket of the price 100.007 is
100 — the nearest multiple of the fixed absolute tolerance 0.02 — whereas
a bucket whose width is 2% of the price being bucketed (width ≈ 2.00014
here, 100× wider) leaves 100.007 at 100.007; the two discretizations
disagree, so the tolerance is not 2% of the price. -/
theorem supportResistance_bucket_counterexample :
    roundedPrice (100007/1000) = 100 ∧
    specRelativeBucket (100007/1000) = 100007/1000 ∧
    (100 : ℚ) ≠ 100007/1000 := by
  refine ⟨?_, ?_, by norm_num⟩
  · have h : round ((100007/1000 : ℚ) / (2/100)) = 5000 := by
      rw [round_eq, Int.floor_eq_iff] <;> norm_num
    rw [roundedPrice, h]
    norm_num
  · have h : round ((100007/1000 : ℚ) / (2/100 * (100007/1000))) = 50 := by
      rw [round_eq, Int.floor_eq_iff] <;> norm_num
    rw [specRelativeBucket, h]
    norm_num

/-- Claim C7, amended: `calculateSupportResistance` counts touches by
discretizing each bar's high and low to the nearest multiple of the fixed
absolute tolerance 0.02 — a bucket width that does not scale with the
price — and tallies occurrences per bucket: the count stored for a bucket
is exactly the number of price points (highs and lows) whose nearest
0.02-multiple is that bucket, and every bucket is within 0.01 of the
prices it absorbs. -/
theorem supportResistance_touch_counting (data : List OHLCV) (k p : ℚ) :
    getCount (buildPriceCounts (pricePoints data)) k =
      countOcc k ((pricePoints data).map roundedPrice) ∧
    (∃ n : ℤ, roundedPrice p = n * (2/100)) ∧
    |p - roundedPrice p| ≤ 1/100 := by
  refine ⟨?_, ⟨round (p / (2/100)), rfl⟩, ?_⟩
  · rw [buildPriceCounts, buildPriceCounts_count]
    simp [getCount]
  · have h := abs_sub_round (p / (2/100))
    have e : p - (round (p / (2/100)) : ℚ) * (2/100) =
        (p / (2/100) - round (p / (2/100))) * (2/100) := by ring
    rw [roundedPrice, e, abs_mul, show |(2/100 : ℚ)| = 2/100 by norm_num]
    linarith

/-! ## Claim C4 -/

/-- Membership in the first-occurrence deduplication. -/
theorem mem_jsDedup (x : ℚ) :
    ∀ (l seen : List ℚ), x ∈ jsDedup seen l ↔ x ∈ l ∧ x ∉ seen := by
  intro l
  induction l with
  | nil => intro seen; simp [jsDedup]
  | cons a rest ih =>
    intro seen
    by_cases ha : a ∈ seen
    · rw [jsDedup, if_pos ha, ih]
      constructor
      · exact fun h => ⟨List.mem_cons_of_mem _ h.1, h.2⟩
      · rintro ⟨h1, h2⟩
        rcases List.mem_cons.1 h1 with rfl | h1
        · exact absurd ha h2
        · exact ⟨h1, h2⟩
    · rw [jsDedup, if_neg ha]
      constructor
      · intro h
        rcases List.mem_cons.1 h with rfl | h
        · exact ⟨List.mem_cons_self _ _, ha⟩
        · have h' := (ih _).1 h
          exact ⟨List.mem_cons_of_mem _ h'.1,
            fun hseen => h'.2 (List.mem_cons_of_mem _ hseen)⟩
      · rintro ⟨h1, h2⟩
        rcases List.mem_cons.1 h1 with rfl | h1
        · exact List.mem_cons_self _ _
        · by_cases hx : x = a
          · subst hx
            exact List.mem_cons_self _ _
          · refine List.mem_cons_of_mem _ ((ih _).2 ⟨h1, ?_⟩)
            intro hmem
            rcases List.mem_cons.1 hmem with h | h
            · exact hx h
            · exact h2 h

/-- A left fold accumulating a sum equals the initial value plus the sum
of the mapped list. -/
theorem foldl_add_map (f : Contract → ℚ) :
    ∀ (l : List Contract) (a : ℚ),
      l.foldl (fun sum c => sum + f c) a = a + (l.map f).sum := by
  intro l
  induction l with
  | nil => intro a; simp
  | cons c rest ih => intro a; simp [ih, add_assoc]

/-- The aggregate intrinsic loss is invariant under permutation of the
contract list. -/
theorem totalValue_perm {l l' : List Contract} (hp : l'.Perm l) (s : ℚ) :
    totalValue l' s = totalValue l s := by
  unfold totalValue
  rw [foldl_add_map, foldl_add_map, foldl_add_map, foldl_add_map,
    ((hp.filter _).map _).sum_eq, ((hp.filter _).map _).sum_eq]

/-- Once the scan state holds a total that no later strike beats, the fold
leaves the state unchanged. -/
theorem foldl_maxPainStep_keep (contracts : List Contract) :
    ∀ (ss : List ℚ) (mp m : ℚ),
      (∀ s ∈ ss, ¬ totalValue contracts s < m) →
      ss.foldl (maxPainStep contracts) (mp, some m) = (mp, some m) := by
  intro ss
  induction ss with
  | nil => intro mp m _; rfl
  | cons s rest ih =>
    intro mp m h
    rw [List.foldl_cons]
    have hs : ¬ totalValue contracts s < m := h s (List.mem_cons_self s rest)
    simp only [maxPainStep, if_neg hs]
    exact ih mp m fun u hu => h u (List.mem_cons_of_mem _ hu)

/-- If a strike of strictly minimal total value occurs in the scanned
list, the fold ends at that strike, whatever state it starts from
(provided any current minimum is still above the optimum). -/
theorem foldl_maxPainStep_min (contracts : List Contract) (sStar : ℚ) :
    ∀ (ss : List ℚ) (st : ℚ × Option ℚ), sStar ∈ ss →
      (∀ s ∈ ss, s = sStar ∨
        totalValue contracts sStar < totalValue contracts s) →
      (st.2 = none ∨ ∃ m, st.2 = some m ∧ totalValue contracts sStar < m) →
      ss.foldl (maxPainStep contracts) st =
        (sStar, some (totalValue contracts sStar)) := by
  intro ss
  induction ss with
  | nil => intro st h; exact absurd h (List.not_mem_nil sStar)
  | cons s rest ih =>
    intro st hmem hmin hst
    obtain ⟨mp, b⟩ := st
    rw [List.foldl_cons]
    by_cases hs : s = sStar
    · subst hs
      have hstep : maxPainStep contracts (mp, b) s =
          (s, some (totalValue contracts s)) := by
        rcases hst with hb | ⟨m, hb, hm⟩
        · simp only at hb
          rw [hb]
          rfl
        · simp only at hb
          rw [hb]
          simp only [maxPainStep, if_pos hm]
      rw [hstep]
      exact foldl_maxPainStep_keep contracts rest s _ fun u hu => by
        rcases hmin u (List.mem_cons_of_mem _ hu) with rfl | hlt
        · exact lt_irrefl _
        · exact not_lt_of_gt hlt
    · have hmem' : sStar ∈ rest := by
        rcases List.mem_cons.1 hmem with h | h
        · exact absurd h.symm hs
        · exact h
      have hlt : totalValue contracts sStar < totalValue contracts s := by
        rcases hmin s (List.mem_cons_self s rest) with h | h
        · exact absurd h hs
        · exact h
      have hmin' : ∀ u ∈ rest, u = sStar ∨
          totalValue contracts sStar < totalValue contracts u :=
        fun u hu => hmin u (List.mem_cons_of_mem _ hu)
      cases b with
      | none =>
        refine ih (s, some (totalValue contracts s)) hmem' hmin' ?_
        exact Or.inr ⟨totalValue contracts s, rfl, hlt⟩
      | some m =>
        rcases hst with hb | ⟨m', hb, hm⟩
        · exact absurd hb (by simp)
        · have hm' : totalValue contracts sStar < m := by
            rw [Option.some.inj hb]
            exact hm
          by_cases hcmp : totalValue contracts s < m
          · simp only [maxPainStep, if_pos hcmp]
            exact ih (s, some (totalValue contracts s)) hmem' hmin'
              (Or.inr ⟨totalValue contracts s, rfl, hlt⟩)
          · simp only [maxPainStep, if_neg hcmp]
            exact ih (mp, some m) hmem' hmin' (Or.inr ⟨m, rfl, hm'⟩)

/-- Claim C4, counterexample: with one call at strike 100 and one put at
strike 200 (each with open interest 1), both candidate strikes have total
loss 100, and the strict-`<` scan keeps the first strike it saw — so the
two orderings of the same contracts give different max-pain strikes. -/
theorem calculateMaxPain_order_counterexample :
    List.Perm
      [(⟨200, .PUT, 0, 1⟩ : Contract), ⟨100, .CALL, 0, 1⟩]
      [(⟨100, .CALL, 0, 1⟩ : Contract), ⟨200, .PUT, 0, 1⟩] ∧
    calculateMaxPain [⟨100, .CALL, 0, 1⟩, ⟨200, .PUT, 0, 1⟩] 150 = 100 ∧
    calculateMaxPain [⟨200, .PUT, 0, 1⟩, ⟨100, .CALL, 0, 1⟩] 150 = 200 := by
  refine ⟨List.Perm.swap _ _ _, ?_, ?_⟩ <;>
    norm_num [calculateMaxPain, strikesOf, jsDedup, maxPainStep, totalValue,
      List.filter]

/-- Claim C4, amended: `calculateMaxPain` is invariant to the order of
the contracts whenever a unique strike minimizes the total loss: both the
list and any permutation of it return that strike.  When several strikes
tie for the minimum, the strict `<` scan keeps the first one in input
order, so reordering can change the result. -/
theorem calculateMaxPain_perm_invariant (contracts contracts' : List Contract)
    (currentPrice : ℚ) (hp : contracts'.Perm contracts) (sStar : ℚ)
    (hmem : sStar ∈ strikesOf contracts)
    (hmin : ∀ s ∈ strikesOf contracts, s = sStar ∨
      totalValue contracts sStar < totalValue contracts s) :
    calculateMaxPain contracts currentPrice = sStar ∧
    calculateMaxPain contracts' currentPrice = sStar := by
  have hmem' : sStar ∈ strikesOf contracts' := by
    have h0 : sStar ∈ contracts.map (fun c => c.strike) := by
      have h1 := hmem
      rw [strikesOf, mem_jsDedup] at h1
      exact h1.1
    rw [strikesOf, mem_jsDedup]
    exact ⟨(hp.map (fun c => c.strike)).mem_iff.2 h0, List.not_mem_nil _⟩
  have hmin' : ∀ s ∈ strikesOf contracts', s = sStar ∨
      totalValue contracts' sStar < totalValue contracts' s := by
    intro s hs
    have hsl : s ∈ strikesOf contracts := by
      have h0 : s ∈ contracts'.map (fun c => c.strike) := by
        have h1 := hs
        rw [strikesOf, mem_jsDedup] at h1
        exact h1.1
      rw [strikesOf, mem_jsDedup]
      exact ⟨(hp.map (fun c => c.strike)).mem_iff.1 h0, List.not_mem_nil _⟩
    rw [totalValue_perm hp, totalValue_perm hp]
    exact hmin s hsl
  constructor
  · unfold calculateMaxPain
    rw [foldl_maxPainStep_min contracts sStar (strikesOf contracts)
      (currentPrice, none) hmem hmin (Or.inl rfl)]
  · unfold calculateMaxPain
    rw [foldl_maxPainStep_min contracts' sStar (strikesOf contracts')
      (currentPrice, none) hmem' hmin' (Or.inl rfl)]

/-- Claim C4, witness for the amended theorem: two calls with distinct
total losses, scanned in both orders, both give the unique minimizer. -/
theorem calculateMaxPain_perm_invariant_witness :
    calculateMaxPain [⟨100, .CALL, 0, 1⟩, ⟨200, .CALL, 0, 3⟩] 150 = 100 ∧
    calculateMaxPain [⟨200, .CALL, 0, 3⟩, ⟨100, .CALL, 0, 1⟩] 150 = 100 :=
  calculateMaxPain_perm_invariant
    [⟨100, .CALL, 0, 1⟩, ⟨200, .CALL, 0, 3⟩]
    [⟨200, .CALL, 0, 3⟩, ⟨100, .CALL, 0, 1⟩] 150
    (List.Perm.swap _ _ _) 100
    (by norm_num [strikesOf, jsDedup])
    (by
      intro s hs
      rw [strikesOf] at hs
      norm_num [jsDedup] at hs
      rcases hs with rfl | rfl
      · exact Or.inl rfl
      · exact Or.inr (by
          norm_num [totalValue, List.filter,
            show decide (OptionType.CALL = OptionType.PUT) = false from rfl]))

/-! ## Abramowitz-Stegun approximation analysis -/

/-- The `normalCDF` body, re-expressed through `yFun`. -/
theorem normalCDF_eq (x : ℝ) :
    normalCDF x =
      0.5 * (1 + (if x < 0 then (-1:ℝ) else 1) * yFun (|x| / Real.sqrt 2)) :=
  rfl

/-- The Horner polynomial of the approximation is nonnegative on [0, 1]. -/
theorem asPoly_nonneg (t : ℝ) (h0 : 0 ≤ t) (h1 : t ≤ 1) : 0 ≤ asPoly t := by
  unfold asPoly
  nlinarith [sq_nonneg (t - 1/8), sq_nonneg t, sq_nonneg (t*t - t/8),
    mul_nonneg h0 h0, mul_nonneg (mul_nonneg h0 h0) h0,
    mul_nonneg (mul_nonneg (mul_nonneg h0 h0) h0) h0,
    mul_nonneg h0 (sub_nonneg.2 h1), sq_nonneg (t*t - t)]

/-- The Horner polynomial of the approximation is at most 1.7 on [0, 1]. -/
theorem asPoly_le (t : ℝ) (h0 : 0 ≤ t) (h1 : t ≤ 1) : asPoly t ≤ 17/10 := by
  unfold asPoly
  nlinarith [mul_nonneg h0 h0, mul_nonneg (mul_nonneg h0 h0) h0,
    mul_nonneg (mul_nonneg (mul_nonneg h0 h0) h0) h0,
    mul_nonneg h0 (sub_nonneg.2 h1),
    mul_nonneg (mul_nonneg h0 h0) (sub_nonneg.2 h1),
    mul_nonneg (mul_nonneg (mul_nonneg h0 h0) h0) (sub_nonneg.2 h1)]

/-- For nonnegative arguments the `y` of `normalCDF` stays within
[-0.7, 1]. -/
theorem yFun_bounds (u : ℝ) (hu : 0 ≤ u) : -(7/10) ≤ yFun u ∧ yFun u ≤ 1 := by
  unfold yFun
  have h1p : (0:ℝ) < 1 + 0.3275911 * u := by nlinarith
  set t : ℝ := 1 / (1 + 0.3275911 * u) with ht
  have ht0 : 0 < t := by positivity
  have ht1 : t ≤ 1 := by
    rw [ht, div_le_one h1p]
    nlinarith
  have hE0 : 0 < Real.exp (-(u * u)) := Real.exp_pos _
  have hE1 : Real.exp (-(u * u)) ≤ 1 := Real.exp_le_one_iff.2 (by nlinarith)
  have hP0 : 0 ≤ asPoly t := asPoly_nonneg t ht0.le ht1
  have hP1 : asPoly t ≤ 17/10 := asPoly_le t ht0.le ht1
  have hPt : asPoly t * t ≤ 17/10 := by nlinarith
  have hPtE : asPoly t * t * Real.exp (-(u * u)) ≤ 17/10 := by
    nlinarith [mul_nonneg hP0 ht0.le]
  have hPtE0 : 0 ≤ asPoly t * t * Real.exp (-(u * u)) :=
    mul_nonneg (mul_nonneg hP0 ht0.le) hE0.le
  constructor
  · linarith
  · linarith

/-- The code's `normalCDF` always lies in [0, 1]. -/
theorem normalCDF_mem (x : ℝ) : 0 ≤ normalCDF x ∧ normalCDF x ≤ 1 := by
  rw [normalCDF_eq]
  have hy := yFun_bounds (|x| / Real.sqrt 2) (by positivity)
  by_cases hx : x < 0 <;> simp only [hx, if_true, if_false] <;>
    constructor <;> nlinarith [hy.1, hy.2]

/-- Away from 0 the sign trick makes the approximation exactly
complementary: `Φ(x) + Φ(-x) = 1`. -/
theorem normalCDF_add_neg (x : ℝ) (hx : x ≠ 0) :
    normalCDF x + normalCDF (-x) = 1 := by
  rw [normalCDF_eq, normalCDF_eq, abs_neg]
  rcases hx.lt_or_lt with h | h
  · rw [if_pos h, if_neg (by linarith : ¬ -x < 0)]
    ring
  · rw [if_neg (by linarith : ¬ x < 0), if_pos (by linarith : -x < 0)]
    ring

/-- At 0 the approximation evaluates to exactly
`0.5 * (1 + 10^-9)`: the polynomial coefficients sum to
0.999999999 rather than 1. -/
theorem normalCDF_zero : normalCDF 0 = 0.5 * (1 + 1/1000000000) := by
  rw [normalCDF_eq]
  norm_num [yFun, asPoly]

/-! ## Claim C5 -/

/-- Claim C5: for every strike K > 0 and positive time to expiration
(with the code's fixed S = 150, r = 0.05, sigma = 0.25), the delta
returned by `calculateGreeks` lies in [0, 1] for a call and in [-1, 0]
for a put. -/
theorem bsDelta_bounds (K T : ℝ) (hK : 0 < K) (hT : 0 < T) :
    (0 ≤ bsDelta K T "call" ∧ bsDelta K T "call" ≤ 1) ∧
    (-1 ≤ bsDelta K T "put" ∧ bsDelta K T "put" ≤ 0) := by
  have h := normalCDF_mem (bsD1 K T)
  constructor
  · rw [bsDelta, if_pos rfl]
    exact h
  · rw [bsDelta, if_neg (by decide)]
    exact ⟨by linarith [h.1], by linarith [h.2]⟩

/-- Claim C5, witness at the spec's scenario inputs K = 150,
T = 30/365. -/
theorem bsDelta_bounds_witness :
    (0 ≤ bsDelta 150 (30/365) "call" ∧ bsDelta 150 (30/365) "call" ≤ 1) ∧
    (-1 ≤ bsDelta 150 (30/365) "put" ∧ bsDelta 150 (30/365) "put" ≤ 0) :=
  bsDelta_bounds 150 (30/365) (by norm_num) (by norm_num)

/-! ## Claim C3 -/

/-- Claim C3: for every strike K > 0 and positive time to expiration, the
theoretical call price minus the theoretical put price of
`calculateGreeks` (same S = 150, K, T, r = 0.05, sigma = 0.25, with the
code's `normalCDF` approximation) equals `S - K e^{-rT}` within 10^-6.
Off the measure-zero set `d1 = 0` or `d2 = 0` the identity is exact; on
it the deviation is at most `150 * 10^-9`. -/
theorem bs_put_call_parity (K T : ℝ) (hK : 0 < K) (hT : 0 < T) :
    |bsCallPrice K T - bsPutPrice K T -
      (150 - K * Real.exp (-(0.05) * T))| ≤ 1/1000000 := by
  have hsT : 0 < Real.sqrt T := Real.sqrt_pos.2 hT
  have hE : 0 < Real.exp (-(0.05) * T) := Real.exp_pos _
  have hD0 : 0 < K * Real.exp (-(0.05) * T) := mul_pos hK hE
  have key : bsCallPrice K T - bsPutPrice K T -
      (150 - K * Real.exp (-(0.05) * T)) =
      150 * (normalCDF (bsD1 K T) + normalCDF (-bsD1 K T) - 1) -
        K * Real.exp (-(0.05) * T) *
          (normalCDF (bsD2 K T) + normalCDF (-bsD2 K T) - 1) := by
    unfold bsCallPrice bsPutPrice
    ring
  by_cases h1 : bsD1 K T = 0
  · have h2 : bsD2 K T ≠ 0 := by
      rw [bsD2, h1, zero_sub, neg_ne_zero]
      exact ne_of_gt (by linarith)
    rw [key, normalCDF_add_neg _ h2, h1, neg_zero, normalCDF_zero]
    norm_num
    rw [abs_of_nonneg (by norm_num : (0:ℝ) ≤ 3/20000000)]
    norm_num
  · by_cases h2 : bsD2 K T = 0
    · have hd1eq : bsD1 K T = 0.25 * Real.sqrt T := by
        rw [bsD2, sub_eq_zero] at h2
        exact h2
      have hden : (0.25 : ℝ) * Real.sqrt T ≠ 0 := ne_of_gt (by linarith)
      have hnum : Real.log (150 / K) + (0.05 + 0.25 ^ 2 / 2) * T =
          0.25 * Real.sqrt T * (0.25 * Real.sqrt T) := by
        rw [bsD1] at hd1eq
        field_simp at hd1eq
        linarith [hd1eq]
      have hss : Real.sqrt T * Real.sqrt T = T := Real.mul_self_sqrt hT.le
      have hlog : Real.log (150 / K) = -(0.01875) * T := by
        have e : 0.25 * Real.sqrt T * (0.25 * Real.sqrt T) =
            0.0625 * (Real.sqrt T * Real.sqrt T) := by ring
        rw [e, hss] at hnum
        nlinarith [hnum]
      have hlogK : Real.log K = Real.log 150 + 0.01875 * T := by
        rw [Real.log_div (by norm_num) (ne_of_gt hK)] at hlog
        linarith
      have hDle : K * Real.exp (-(0.05) * T) ≤ 150 := by
        have hDeq : K * Real.exp (-(0.05) * T) =
            150 * Real.exp (-(0.03125) * T) := by
          conv_lhs => rw [← Real.exp_log hK]
          rw [← Real.exp_add, hlogK,
            show Real.log 150 + 0.01875 * T + -(0.05) * T =
              Real.log 150 + -(0.03125) * T by ring,
            Real.exp_add, Real.exp_log (by norm_num : (0:ℝ) < 150)]
        rw [hDeq]
        have h1e : Real.exp (-(0.03125) * T) ≤ 1 :=
          Real.exp_le_one_iff.2 (by nlinarith)
        nlinarith [Real.exp_pos (-(0.03125) * T)]
      rw [key, normalCDF_add_neg _ h1, h2, neg_zero, normalCDF_zero]
      rw [show (150:ℝ) * (1 - 1) - K * Real.exp (-(0.05) * T) *
          (0.5 * (1 + 1/1000000000) + 0.5 * (1 + 1/1000000000) - 1) =
          -(K * Real.exp (-(0.05) * T) * (1/1000000000)) by ring]
      rw [abs_neg, abs_of_nonneg (by positivity)]
      nlinarith
    · rw [key, normalCDF_add_neg _ h1, normalCDF_add_neg _ h2]
      norm_num

/-- Claim C3, witness at the concrete inputs K = 155, T = 30/365. -/
theorem bs_put_call_parity_witness :
    |bsCallPrice 155 (30/365) - bsPutPrice 155 (30/365) -
      (150 - 155 * Real.exp (-(0.05) * (30/365)))| ≤ 1/1000000 :=
  bs_put_call_parity 155 (30/365) (by norm_num) (by norm_num)

end StockMCP
